import Mathlib

/-!
Verification of the MiLi `Ranker` container (`include/ranker.h`).

The C++ class keeps a `std::list<T>` sorted under a comparator `Comp`
(modelled as a Bool-valued relation `lt`), bounded by a fixed capacity
`TOP`.  `insert` locates the insertion position with
`std::equal_range` (lower / upper bound, selected by the
`SameValueBehavior` policy), inserts, and — when the capacity had
already been reached — disposes and erases the last element of the
list, returning `false` exactly when the freshly inserted element was
placed at the very end.

`std::lower_bound` / `std::upper_bound` are specified only on sorted
ranges; on a sorted range they coincide with the linear scans
`lowerBound` / `upperBound` below, which is how we embed them.

Disposal (the `DisposalPolicy` calls) is made observable: every
operation returns, next to the new state, the list of elements the
disposal action was invoked on, in invocation order.
-/

namespace Mili

/-- The `SameValueBehavior` enum of `ranker.h`: what to do when
inserting a value that compares equal to existing elements. -/
inductive SameValueBehavior where
  | AddBeforeEqual
  | AddAfterEqual
deriving DecidableEq

/-- The `Ranker` state: the sorted container `ranking` and the
capacity `TOP`, fixed at construction. -/
structure Ranker (T : Type) where
  ranking : List T
  TOP : Nat
deriving DecidableEq

/-- `std::lower_bound` on a sorted range: index of the first element
`a` with `¬ lt a x` (linear-scan characterisation). -/
def lowerBound {T : Type} (lt : T → T → Bool) (x : T) : List T → Nat
  | [] => 0
  | a :: l => if lt a x then lowerBound lt x l + 1 else 0

/-- `std::upper_bound` on a sorted range: index of the first element
`a` with `lt x a` (linear-scan characterisation). -/
def upperBound {T : Type} (lt : T → T → Bool) (x : T) : List T → Nat
  | [] => 0
  | a :: l => if lt x a then 0 else upperBound lt x l + 1

/-- The insertion position chosen by `Ranker::insert`:
`position.first` (lower bound) for `AddBeforeEqual`,
`position.second` (upper bound) for `AddAfterEqual`. -/
def insertPos {T : Type} (lt : T → T → Bool) (behavior : SameValueBehavior)
    (x : T) (l : List T) : Nat :=
  match behavior with
  | .AddBeforeEqual => lowerBound lt x l
  | .AddAfterEqual => upperBound lt x l

/-- Result of `Ranker::insert`: the new state, the returned Bool, and
the elements passed to the disposal action. -/
structure InsertResult (T : Type) where
  state : Ranker T
  success : Bool
  disposed : List T
deriving DecidableEq

/-- The transiently over-full list inside `Ranker::insert`, right
after `ranking.insert(pos, element)` and before any eviction:
insertion before the iterator `pos` in a `std::list` is
`take pos ++ element :: drop pos`. -/
def insertedList {T : Type} (lt : T → T → Bool) (behavior : SameValueBehavior)
    (x : T) (l : List T) : List T :=
  l.take (insertPos lt behavior x l) ++ x :: l.drop (insertPos lt behavior x l)

/-- `Ranker::insert` (ranker.h lines 110-133).  The position is
computed by `equal_range` before insertion; `top_not_reached` is the
pre-insertion `size() < TOP`; the element is inserted before `pos`
(list insertion = `take pos ++ x :: drop pos`); when the capacity had
been reached the last element of the now over-full list is disposed
and erased, and the call returns `false` exactly when
`distance(pos, end) == 0`, i.e. when the new element went to the very
end (`pos = old length`). -/
def Ranker.insert {T : Type} (lt : T → T → Bool) (behavior : SameValueBehavior)
    (r : Ranker T) (element : T) : InsertResult T :=
  let pos := insertPos lt behavior element r.ranking
  let top_not_reached := r.ranking.length < r.TOP
  let inserted := insertedList lt behavior element r.ranking
  if top_not_reached then
    ⟨⟨inserted, r.TOP⟩, true, []⟩
  else
    ⟨⟨inserted.dropLast, r.TOP⟩, decide (pos ≠ r.ranking.length),
      match inserted.getLast? with
      | some e => [e]
      | none => []⟩

/-- `Ranker::remove_first(const T&)` (lines 135-141): `std::find` the
first element equal (value equality) to `element`, dispose it, erase
it.  When no element is equal, the code dereferences the `end()`
iterator — undefined behaviour — which we model as `none`. -/
def Ranker.remove_first {T : Type} [DecidableEq T]
    (r : Ranker T) (element : T) : Option (Ranker T × List T) :=
  if element ∈ r.ranking then
    some (⟨r.ranking.erase element, r.TOP⟩, [element])
  else
    none

/-- `Ranker::remove_all(const T&)` (lines 143-154): dispose every
element equal (value equality) to `element`, then
`list::remove(element)` erases all of them. -/
def Ranker.remove_all {T : Type} [DecidableEq T]
    (r : Ranker T) (element : T) : Ranker T × List T :=
  (⟨r.ranking.filter (fun x => decide (x ≠ element)), r.TOP⟩,
   r.ranking.filter (fun x => decide (element = x)))

/-- `Ranker::remove_first(T*)` (lines 156-162): `std::find` the first
occurrence identical to the handle `element`, dispose the handle,
erase the found position.  When absent, the erase of the unchecked
`end()` iterator is undefined behaviour, modelled as `none`. -/
def Ranker.remove_first_id {T : Type} [DecidableEq T]
    (r : Ranker T) (element : T) : Option (Ranker T × List T) :=
  if element ∈ r.ranking then
    some (⟨r.ranking.erase element, r.TOP⟩, [element])
  else
    none

/-- `Ranker::remove_all(T*)` (lines 164-169): the disposal action is
invoked once on the handle `element`, unconditionally, and then
`list::remove(element)` erases every identical occurrence. -/
def Ranker.remove_all_id {T : Type} [DecidableEq T]
    (r : Ranker T) (element : T) : Ranker T × List T :=
  (⟨r.ranking.filter (fun x => decide (x ≠ element)), r.TOP⟩, [element])

/-- `Ranker::clear` (lines 183-193): dispose every element in order,
then empty the container.  Also invoked by the destructor. -/
def Ranker.clear {T : Type} (r : Ranker T) : Ranker T × List T :=
  (⟨[], r.TOP⟩, r.ranking)

/-- `Ranker::size` (lines 177-181). -/
def Ranker.size {T : Type} (r : Ranker T) : Nat :=
  r.ranking.length

/-- `Ranker::empty` (lines 171-175). -/
def Ranker.isEmptyR {T : Type} (r : Ranker T) : Bool :=
  r.ranking.isEmpty

/-- `Ranker::top` (lines 207-211): the first element; only defined on
a non-empty ranking. -/
def Ranker.topElem {T : Type} (r : Ranker T) : Option T :=
  r.ranking.head?

/-- `Ranker::bottom` (lines 213-217): the last element; only defined
on a non-empty ranking. -/
def Ranker.bottom {T : Type} (r : Ranker T) : Option T :=
  r.ranking.getLast?

/-- Folding `insert` over a list of elements, keeping only the state
(used to reason about sequences of insertions). -/
def insertAll {T : Type} (lt : T → T → Bool) (behavior : SameValueBehavior)
    (r : Ranker T) : List T → Ranker T
  | [] => r
  | x :: l => insertAll lt behavior (Ranker.insert lt behavior r x).state l

/-- Sortedness invariant I2: top-to-bottom, no later element is
strictly below an earlier one under the comparator. -/
def SortedRanking {T : Type} (lt : T → T → Bool) (l : List T) : Prop :=
  List.Pairwise (fun a b => lt b a = false) l

/-- A strict weak order, as required of `Comp`: irreflexive,
transitive, and weakly linear (`a < b` entails `a < c` or `c < b`);
this is equivalent to the usual axioms with transitive
incomparability. -/
structure IsStrictWeakOrder {T : Type} (lt : T → T → Bool) : Prop where
  irrefl : ∀ a, lt a a = false
  trans : ∀ a b c, lt a b = true → lt b c = true → lt a c = true
  cotrans : ∀ a b c, lt a b = true → lt a c = true ∨ lt c b = true

/-- The states reachable from a freshly constructed `Ranker(top)` by
any sequence of the public mutating operations. -/
inductive Reachable {T : Type} [DecidableEq T] (lt : T → T → Bool)
    (behavior : SameValueBehavior) (top : Nat) : Ranker T → Prop where
  | init : Reachable lt behavior top ⟨[], top⟩
  | insert {r : Ranker T} (x : T) : Reachable lt behavior top r →
      Reachable lt behavior top (Ranker.insert lt behavior r x).state
  | remove_first {r r' : Ranker T} {d : List T} (x : T) :
      Reachable lt behavior top r → Ranker.remove_first r x = some (r', d) →
      Reachable lt behavior top r'
  | remove_all {r : Ranker T} (x : T) : Reachable lt behavior top r →
      Reachable lt behavior top (Ranker.remove_all r x).1
  | remove_first_id {r r' : Ranker T} {d : List T} (x : T) :
      Reachable lt behavior top r → Ranker.remove_first_id r x = some (r', d) →
      Reachable lt behavior top r'
  | remove_all_id {r : Ranker T} (x : T) : Reachable lt behavior top r →
      Reachable lt behavior top (Ranker.remove_all_id r x).1
  | clear {r : Ranker T} : Reachable lt behavior top r →
      Reachable lt behavior top (Ranker.clear r).1

/-- Natural-number strict order as a Bool comparator, the analogue of
the default `std::less<T>`; used for concrete instances. -/
def natlt (a b : Nat) : Bool :=
  decide (a < b)

/-- In a strict weak order, `lt` is asymmetric. -/
theorem IsStrictWeakOrder.asymm {T : Type} {lt : T → T → Bool}
    (h : IsStrictWeakOrder lt) {a b : T} (hab : lt a b = true) : lt b a = false := by
  cases hba : lt b a with
  | false => rfl
  | true => have := h.irrefl a; rw [h.trans a b a hab hba] at this; exact absurd this (by simp)

theorem lowerBound_le_length {T : Type} (lt : T → T → Bool) (x : T) (l : List T) :
    lowerBound lt x l ≤ l.length := by
  induction l with
  | nil => simp [lowerBound]
  | cons a l ih =>
    simp only [lowerBound, List.length_cons]
    split
    · omega
    · omega

theorem upperBound_le_length {T : Type} (lt : T → T → Bool) (x : T) (l : List T) :
    upperBound lt x l ≤ l.length := by
  induction l with
  | nil => simp [upperBound]
  | cons a l ih =>
    simp only [upperBound, List.length_cons]
    split
    · omega
    · omega

theorem insertPos_le_length {T : Type} (lt : T → T → Bool) (behavior : SameValueBehavior)
    (x : T) (l : List T) : insertPos lt behavior x l ≤ l.length := by
  cases behavior with
  | AddBeforeEqual => exact lowerBound_le_length lt x l
  | AddAfterEqual => exact upperBound_le_length lt x l

/-- Everything strictly before the lower bound is strictly below `x`. -/
theorem mem_take_lowerBound {T : Type} {lt : T → T → Bool} {x : T} {l : List T} :
    ∀ a ∈ l.take (lowerBound lt x l), lt a x = true := by
  induction l with
  | nil => simp
  | cons a l ih =>
    simp only [lowerBound]
    split
    · intro b hb
      rw [List.take_cons (by omega)] at hb
      rcases List.mem_cons.1 hb with h | h
      · subst h; assumption
      · exact ih b (by simpa using h)
    · simp

/-- Everything strictly before the upper bound is not above `x`. -/
theorem mem_take_upperBound {T : Type} {lt : T → T → Bool} {x : T} {l : List T} :
    ∀ a ∈ l.take (upperBound lt x l), lt x a = false := by
  induction l with
  | nil => simp
  | cons a l ih =>
    simp only [upperBound]
    split
    · simp
    · next hxa =>
      intro b hb
      rw [List.take_cons (by omega)] at hb
      rcases List.mem_cons.1 hb with h | h
      · subst h; simpa using hxa
      · exact ih b (by simpa using h)

/-- On a sorted list, everything at or after the lower bound is not
below `x` (uses weak linearity of the order). -/
theorem mem_drop_lowerBound {T : Type} {lt : T → T → Bool}
    (h : IsStrictWeakOrder lt) {x : T} {l : List T} (hs : SortedRanking lt l) :
    ∀ b ∈ l.drop (lowerBound lt x l), lt b x = false := by
  induction l with
  | nil => simp
  | cons a l ih =>
    rw [SortedRanking, List.pairwise_cons] at hs
    obtain ⟨ha, hl⟩ := hs
    simp only [lowerBound]
    split
    · intro b hb
      exact ih hl b (by simpa using hb)
    · next hax =>
      intro b hb
      rcases List.mem_cons.1 (by simpa using hb) with hba | hbl
      · subst hba
        simpa using hax
      · cases hbx : lt b x with
        | false => rfl
        | true =>
          rcases h.cotrans b x a hbx with hc | hc
          · rw [ha b hbl] at hc; exact hc.symm
          · exact absurd hc hax

/-- On a sorted list, everything at or after the upper bound is not
below `x` (uses transitivity of the order). -/
theorem mem_drop_upperBound {T : Type} {lt : T → T → Bool}
    (h : IsStrictWeakOrder lt) {x : T} {l : List T} (hs : SortedRanking lt l) :
    ∀ b ∈ l.drop (upperBound lt x l), lt b x = false := by
  induction l with
  | nil => simp
  | cons a l ih =>
    rw [SortedRanking, List.pairwise_cons] at hs
    obtain ⟨ha, hl⟩ := hs
    simp only [upperBound]
    split
    · intro b hb
      rcases List.mem_cons.1 (by simpa using hb) with hba | hbl
      · subst hba
        exact h.asymm (by assumption)
      · cases hbx : lt b x with
        | false => rfl
        | true =>
          have : lt b a = true := h.trans b x a hbx (by assumption)
          rw [ha b hbl] at this
          exact this.symm
    · intro b hb
      exact ih hl b (by simpa using hb)

/-- Everything strictly before the insertion position is not above
`x`, for either tie-break behavior. -/
theorem mem_take_insertPos {T : Type} {lt : T → T → Bool}
    (h : IsStrictWeakOrder lt) (behavior : SameValueBehavior) {x : T} {l : List T} :
    ∀ a ∈ l.take (insertPos lt behavior x l), lt x a = false := by
  cases behavior with
  | AddBeforeEqual =>
    intro a ha
    exact h.asymm (mem_take_lowerBound a ha)
  | AddAfterEqual =>
    exact fun a ha => mem_take_upperBound a ha

/-- On a sorted list, everything at or after the insertion position is
not below `x`, for either tie-break behavior. -/
theorem mem_drop_insertPos {T : Type} {lt : T → T → Bool}
    (h : IsStrictWeakOrder lt) (behavior : SameValueBehavior) {x : T} {l : List T}
    (hs : SortedRanking lt l) :
    ∀ b ∈ l.drop (insertPos lt behavior x l), lt b x = false := by
  cases behavior with
  | AddBeforeEqual => exact mem_drop_lowerBound h hs
  | AddAfterEqual => exact mem_drop_upperBound h hs

/-- Sortedness is preserved by taking a sublist. -/
theorem SortedRanking.sublist {T : Type} {lt : T → T → Bool} {l₁ l₂ : List T}
    (hsub : l₁.Sublist l₂) (hs : SortedRanking lt l₂) : SortedRanking lt l₁ :=
  List.Pairwise.sublist hsub hs

/-- Inserting at the position chosen by `equal_range` plus the
tie-break keeps the list sorted (invariant I2 for `insert`, before the
eviction step). -/
theorem sorted_insertedList {T : Type} {lt : T → T → Bool}
    (h : IsStrictWeakOrder lt) (behavior : SameValueBehavior) (x : T) {l : List T}
    (hs : SortedRanking lt l) :
    SortedRanking lt (insertedList lt behavior x l) := by
  unfold insertedList
  have hsplit : List.Pairwise (fun a b => lt b a = false)
      (l.take (insertPos lt behavior x l) ++ l.drop (insertPos lt behavior x l)) := by
    rw [List.take_append_drop]; exact hs
  rw [List.pairwise_append] at hsplit
  obtain ⟨hp1, hp2, hcross⟩ := hsplit
  rw [SortedRanking, List.pairwise_append]
  refine ⟨hp1, ?_, ?_⟩
  · rw [List.pairwise_cons]
    exact ⟨mem_drop_insertPos h behavior hs, hp2⟩
  · intro a ha b hb
    rcases List.mem_cons.1 hb with hbx | hbd
    · subst hbx
      exact mem_take_insertPos h behavior a ha
    · exact hcross a ha b hbd

theorem length_insertedList {T : Type} (lt : T → T → Bool) (behavior : SameValueBehavior)
    (x : T) (l : List T) : (insertedList lt behavior x l).length = l.length + 1 := by
  have hle := insertPos_le_length lt behavior x l
  simp [insertedList, List.length_take, List.length_drop]
  omega

theorem insertedList_ne_nil {T : Type} (lt : T → T → Bool) (behavior : SameValueBehavior)
    (x : T) (l : List T) : insertedList lt behavior x l ≠ [] := by
  intro hcon
  have := length_insertedList lt behavior x l
  rw [hcon] at this
  simp at this

/-- When the insertion position is the end of the list, the new
element goes to the very tail. -/
theorem insertedList_eq_concat {T : Type} {lt : T → T → Bool} {behavior : SameValueBehavior}
    {x : T} {l : List T} (hp : insertPos lt behavior x l = l.length) :
    insertedList lt behavior x l = l ++ [x] := by
  unfold insertedList
  rw [hp, List.take_length, List.drop_length]

/-- The new element sits at the chosen insertion position in the
transient list. -/
theorem insertedList_getElem_pos {T : Type} (lt : T → T → Bool) (behavior : SameValueBehavior)
    (x : T) (l : List T) :
    (insertedList lt behavior x l)[insertPos lt behavior x l]? = some x := by
  have hle := insertPos_le_length lt behavior x l
  unfold insertedList
  rw [List.getElem?_append]
  rw [List.length_take]
  have hmin : insertPos lt behavior x l ⊓ l.length = insertPos lt behavior x l := by omega
  rw [hmin, if_neg (by omega)]
  simp

/-- A non-empty list splits off its last element. -/
theorem exists_last_decomp {T : Type} {l : List T} (h : l ≠ []) :
    ∃ e, l.getLast? = some e ∧ l.dropLast ++ [e] = l := by
  refine ⟨l.getLast h, ?_, List.dropLast_append_getLast h⟩
  exact List.getLast?_eq_getLast l h

/-- `insert` never changes the capacity. -/
theorem insert_TOP {T : Type} (lt : T → T → Bool) (behavior : SameValueBehavior)
    (r : Ranker T) (x : T) : (Ranker.insert lt behavior r x).state.TOP = r.TOP := by
  simp only [Ranker.insert]
  split <;> rfl

/-- The not-yet-full branch of `Ranker::insert`: plain sorted
insertion, returning `true`, no disposal. -/
theorem insert_not_full {T : Type} {lt : T → T → Bool} {behavior : SameValueBehavior}
    {r : Ranker T} {x : T} (hlt : r.ranking.length < r.TOP) :
    Ranker.insert lt behavior r x =
      ⟨⟨insertedList lt behavior x r.ranking, r.TOP⟩, true, []⟩ := by
  simp only [Ranker.insert]
  rw [if_pos hlt]

/-- The full branch of `Ranker::insert`: the last element of the
transient list is disposed and erased; the call returns `false`
exactly when the new element was that last element. -/
theorem insert_full {T : Type} {lt : T → T → Bool} {behavior : SameValueBehavior}
    {r : Ranker T} {x : T} (hge : r.TOP ≤ r.ranking.length) :
    ∃ e, (insertedList lt behavior x r.ranking).getLast? = some e ∧
      Ranker.insert lt behavior r x =
        ⟨⟨(insertedList lt behavior x r.ranking).dropLast, r.TOP⟩,
          decide (insertPos lt behavior x r.ranking ≠ r.ranking.length), [e]⟩ ∧
      (Ranker.insert lt behavior r x).state.ranking ++ [e] =
        insertedList lt behavior x r.ranking := by
  obtain ⟨e, he, hdecomp⟩ := exists_last_decomp (insertedList_ne_nil lt behavior x r.ranking)
  have hbranch : Ranker.insert lt behavior r x =
      ⟨⟨(insertedList lt behavior x r.ranking).dropLast, r.TOP⟩,
        decide (insertPos lt behavior x r.ranking ≠ r.ranking.length), [e]⟩ := by
    simp only [Ranker.insert]
    rw [if_neg (by omega), he]
  refine ⟨e, he, hbranch, ?_⟩
  rw [hbranch]
  exact hdecomp

/-- `remove_first` succeeds exactly on a present element, removing its
first occurrence. -/
theorem remove_first_eq_some {T : Type} [DecidableEq T] {r r' : Ranker T} {x : T}
    {d : List T} (h : Ranker.remove_first r x = some (r', d)) :
    x ∈ r.ranking ∧ r' = ⟨r.ranking.erase x, r.TOP⟩ ∧ d = [x] := by
  unfold Ranker.remove_first at h
  split at h
  · next hmem =>
    simp only [Option.some.injEq, Prod.mk.injEq] at h
    exact ⟨hmem, h.1.symm, h.2.symm⟩
  · exact absurd h (by simp)

/-- `remove_first_id` succeeds exactly on a present element. -/
theorem remove_first_id_eq_some {T : Type} [DecidableEq T] {r r' : Ranker T} {x : T}
    {d : List T} (h : Ranker.remove_first_id r x = some (r', d)) :
    x ∈ r.ranking ∧ r' = ⟨r.ranking.erase x, r.TOP⟩ ∧ d = [x] := by
  unfold Ranker.remove_first_id at h
  split at h
  · next hmem =>
    simp only [Option.some.injEq, Prod.mk.injEq] at h
    exact ⟨hmem, h.1.symm, h.2.symm⟩
  · exact absurd h (by simp)

/-- Every reachable state carries the constructed capacity. -/
theorem reachable_TOP {T : Type} [DecidableEq T] {lt : T → T → Bool}
    {behavior : SameValueBehavior} {top : Nat} {r : Ranker T}
    (hr : Reachable lt behavior top r) : r.TOP = top := by
  induction hr with
  | init => rfl
  | insert x hr ih => rw [insert_TOP]; exact ih
  | remove_first x hr heq ih =>
    obtain ⟨-, h2, -⟩ := remove_first_eq_some heq
    rw [h2]; exact ih
  | remove_all x hr ih => exact ih
  | remove_first_id x hr heq ih =>
    obtain ⟨-, h2, -⟩ := remove_first_id_eq_some heq
    rw [h2]; exact ih
  | remove_all_id x hr ih => exact ih
  | clear hr ih => exact ih

/-- Invariant I1: every reachable state holds at most `TOP` elements. -/
theorem size_le_TOP_of_reachable {T : Type} [DecidableEq T] {lt : T → T → Bool}
    {behavior : SameValueBehavior} {top : Nat} {r : Ranker T}
    (hr : Reachable lt behavior top r) : r.ranking.length ≤ r.TOP := by
  induction hr with
  | init => simp
  | @insert r' x hr ih =>
    by_cases hfull : r'.ranking.length < r'.TOP
    · rw [insert_not_full hfull]
      show (insertedList lt behavior x r'.ranking).length ≤ r'.TOP
      rw [length_insertedList]
      omega
    · obtain ⟨e, -, heq, -⟩ := @insert_full T lt behavior r' x (by omega)
      rw [heq]
      show (insertedList lt behavior x r'.ranking).dropLast.length ≤ r'.TOP
      rw [List.length_dropLast, length_insertedList]
      omega
  | @remove_first r' r'' d x hr heq ih =>
    obtain ⟨-, h2, -⟩ := remove_first_eq_some heq
    subst h2
    show (r'.ranking.erase x).length ≤ r'.TOP
    have := (List.erase_sublist x r'.ranking).length_le
    omega
  | @remove_all r' x hr ih =>
    show (r'.ranking.filter (fun y => decide (y ≠ x))).length ≤ r'.TOP
    have := (List.filter_sublist (p := fun y => decide (y ≠ x)) r'.ranking).length_le
    omega
  | @remove_first_id r' r'' d x hr heq ih =>
    obtain ⟨-, h2, -⟩ := remove_first_id_eq_some heq
    subst h2
    show (r'.ranking.erase x).length ≤ r'.TOP
    have := (List.erase_sublist x r'.ranking).length_le
    omega
  | @remove_all_id r' x hr ih =>
    show (r'.ranking.filter (fun y => decide (y ≠ x))).length ≤ r'.TOP
    have := (List.filter_sublist (p := fun y => decide (y ≠ x)) r'.ranking).length_le
    omega
  | clear hr ih => simp [Ranker.clear]

/-- Invariant I2: every reachable state is sorted. -/
theorem sorted_of_reachable {T : Type} [DecidableEq T] {lt : T → T → Bool}
    {behavior : SameValueBehavior} {top : Nat} {r : Ranker T}
    (h : IsStrictWeakOrder lt) (hr : Reachable lt behavior top r) :
    SortedRanking lt r.ranking := by
  induction hr with
  | init => exact List.Pairwise.nil
  | @insert r' x hr ih =>
    by_cases hfull : r'.ranking.length < r'.TOP
    · rw [insert_not_full hfull]
      exact sorted_insertedList h behavior x ih
    · obtain ⟨e, -, heq, -⟩ := @insert_full T lt behavior r' x (by omega)
      rw [heq]
      show SortedRanking lt (insertedList lt behavior x r'.ranking).dropLast
      exact (sorted_insertedList h behavior x ih).sublist (List.dropLast_sublist _)
  | @remove_first r' r'' d x hr heq ih =>
    obtain ⟨-, h2, -⟩ := remove_first_eq_some heq
    subst h2
    exact ih.sublist (List.erase_sublist x r'.ranking)
  | @remove_all r' x hr ih =>
    exact ih.sublist (List.filter_sublist r'.ranking)
  | @remove_first_id r' r'' d x hr heq ih =>
    obtain ⟨-, h2, -⟩ := remove_first_id_eq_some heq
    subst h2
    exact ih.sublist (List.erase_sublist x r'.ranking)
  | @remove_all_id r' x hr ih =>
    exact ih.sublist (List.filter_sublist r'.ranking)
  | clear hr ih => exact List.Pairwise.nil

theorem upperBound_eq_length_iff {T : Type} {lt : T → T → Bool} {x : T} {l : List T} :
    upperBound lt x l = l.length ↔ ∀ a ∈ l, lt x a = false := by
  induction l with
  | nil => simp [upperBound]
  | cons a l ih =>
    simp only [upperBound, List.length_cons]
    split
    · next hxa =>
      constructor
      · intro heq
        omega
      · intro hall
        rw [hall a (List.mem_cons_self a l)] at hxa
        exact absurd hxa (by simp)
    · next hxa =>
      rw [List.forall_mem_cons]
      constructor
      · intro heq
        exact ⟨by simpa using hxa, ih.1 (by omega)⟩
      · rintro ⟨-, hall⟩
        rw [ih.2 hall]

theorem lowerBound_eq_length_iff {T : Type} {lt : T → T → Bool} {x : T} {l : List T} :
    lowerBound lt x l = l.length ↔ ∀ a ∈ l, lt a x = true := by
  induction l with
  | nil => simp [lowerBound]
  | cons a l ih =>
    simp only [lowerBound, List.length_cons]
    split
    · next hax =>
      rw [List.forall_mem_cons]
      constructor
      · intro heq
        exact ⟨hax, ih.1 (by omega)⟩
      · rintro ⟨-, hall⟩
        rw [ih.2 hall]
    · next hax =>
      constructor
      · intro heq
        omega
      · intro hall
        exact absurd (hall a (List.mem_cons_self a l)) hax

/-- On a sorted non-empty list, `x` is not above any element iff it is
not above the last (bottom) one. -/
theorem forall_not_above_iff_bottom {T : Type} {lt : T → T → Bool}
    (h : IsStrictWeakOrder lt) {x b : T} {l : List T}
    (hs : SortedRanking lt l) (hb : l.getLast? = some b) :
    (∀ a ∈ l, lt x a = false) ↔ lt x b = false := by
  obtain ⟨l', hl'⟩ := List.getLast?_eq_some_iff.1 hb
  subst hl'
  constructor
  · intro hall
    exact hall b (by simp)
  · intro hxb a ha
    rcases List.mem_append.1 ha with ha' | ha'
    · rw [SortedRanking, List.pairwise_append] at hs
      have hba : lt b a = false := by
        have := hs.2.2 a ha' b (by simp)
        exact this
      cases hxa : lt x a with
      | false => rfl
      | true =>
        rcases h.cotrans x a b hxa with hc | hc
        · rw [hxb] at hc; exact hc.symm
        · rw [hba] at hc; exact hc.symm
    · rw [List.mem_singleton.1 ha']
      exact hxb

/-- On a sorted non-empty list, every element is below `x` iff the
last (bottom) one is. -/
theorem forall_below_iff_bottom {T : Type} {lt : T → T → Bool}
    (h : IsStrictWeakOrder lt) {x b : T} {l : List T}
    (hs : SortedRanking lt l) (hb : l.getLast? = some b) :
    (∀ a ∈ l, lt a x = true) ↔ lt b x = true := by
  obtain ⟨l', hl'⟩ := List.getLast?_eq_some_iff.1 hb
  subst hl'
  constructor
  · intro hall
    exact hall b (by simp)
  · intro hbx a ha
    rcases List.mem_append.1 ha with ha' | ha'
    · rw [SortedRanking, List.pairwise_append] at hs
      have hba : lt b a = false := hs.2.2 a ha' b (by simp)
      rcases h.cotrans b x a hbx with hc | hc
      · rw [hba] at hc; exact absurd hc (by simp)
      · exact hc
    · rw [List.mem_singleton.1 ha']
      exact hbx

/-- The insertion position is the very end of a sorted non-empty list
iff the element sorts at or below the current bottom under the
configured tie-break rule: not above the bottom for `AddAfterEqual`,
strictly below the bottom for `AddBeforeEqual`. -/
theorem insertPos_eq_length_iff_bottom {T : Type} {lt : T → T → Bool}
    (h : IsStrictWeakOrder lt) (behavior : SameValueBehavior) {x b : T} {l : List T}
    (hs : SortedRanking lt l) (hb : l.getLast? = some b) :
    insertPos lt behavior x l = l.length ↔
      (match behavior with
       | .AddAfterEqual => lt x b = false
       | .AddBeforeEqual => lt b x = true) := by
  cases behavior with
  | AddAfterEqual =>
    exact upperBound_eq_length_iff.trans (forall_not_above_iff_bottom h hs hb)
  | AddBeforeEqual =>
    exact lowerBound_eq_length_iff.trans (forall_below_iff_bottom h hs hb)

/-- The default comparator on naturals is a strict weak order. -/
theorem natlt_swo : IsStrictWeakOrder natlt := by
  refine ⟨?_, ?_, ?_⟩
  · intro a
    simp [natlt]
  · intro a b c hab hbc
    simp only [natlt, decide_eq_true_eq] at *
    omega
  · intro a b c hab
    simp only [natlt, decide_eq_true_eq] at *
    omega

/-- Claim C10: whenever `insert` returns `false`, the ranking is left
exactly as it was: the new element was placed at the tail
(`insertPos = length`), it is the only element disposed, and no
previously held element is removed. -/
theorem claim_C10_insert_false_frame {T : Type} {lt : T → T → Bool}
    {behavior : SameValueBehavior} {r : Ranker T} {x : T}
    (h : (Ranker.insert lt behavior r x).success = false) :
    (Ranker.insert lt behavior r x).state.ranking = r.ranking ∧
    (Ranker.insert lt behavior r x).disposed = [x] ∧
    insertPos lt behavior x r.ranking = r.ranking.length := by
  by_cases hfull : r.ranking.length < r.TOP
  · rw [insert_not_full hfull] at h
    exact absurd h (by simp)
  · obtain ⟨e, he, heq, hdecomp⟩ := @insert_full T lt behavior r x (by omega)
    rw [heq] at h
    have hpl : insertPos lt behavior x r.ranking = r.ranking.length := by
      have : decide (insertPos lt behavior x r.ranking ≠ r.ranking.length) = false := h
      simpa using this
    have hconcat := insertedList_eq_concat hpl
    rw [hconcat, List.getLast?_concat] at he
    have hex : e = x := by
      injection he with he'
      exact he'.symm
    rw [heq]
    refine ⟨?_, ?_, hpl⟩
    · show (insertedList lt behavior x r.ranking).dropLast = r.ranking
      rw [hconcat, List.dropLast_concat]
    · show [e] = [x]
      rw [hex]

/-- Witness for C10 at a concrete input: capacity 1 holding `[5]`,
inserting 7 returns `false` and frames the state. -/
theorem claim_C10_witness :
    (Ranker.insert natlt .AddAfterEqual (⟨[5], 1⟩ : Ranker Nat) 7).state.ranking = [5] ∧
    (Ranker.insert natlt .AddAfterEqual (⟨[5], 1⟩ : Ranker Nat) 7).disposed = [7] ∧
    insertPos natlt .AddAfterEqual 7 [5] = ([5] : List Nat).length :=
  claim_C10_insert_false_frame (by decide)

/-- Claim C4 counterexample: capacity 2, `AddAfterEqual`, after
inserting 4 and 4, inserting the third 4 returns `false` — not `true`
as the claim states. -/
theorem claim_C4_counterexample :
    (Ranker.insert natlt .AddAfterEqual
      (Ranker.insert natlt .AddAfterEqual
        (Ranker.insert natlt .AddAfterEqual (⟨[], 2⟩ : Ranker Nat) 4).state 4).state
      4).success = false := by
  decide

/-- Claim C4 amended: capacity 2, `AddAfterEqual`: inserting 4 and 4
returns `true` twice, yielding `[4, 4]`; the third equal 4 is placed
at the tail, immediately evicted and disposed (the tie-break keeps the
two earliest-inserted equals), and that `insert` returns `false`,
leaving the sequence `[4, 4]`. -/
theorem claim_C4_amended :
    (Ranker.insert natlt .AddAfterEqual (⟨[], 2⟩ : Ranker Nat) 4).success = true ∧
    (Ranker.insert natlt .AddAfterEqual
      (Ranker.insert natlt .AddAfterEqual (⟨[], 2⟩ : Ranker Nat) 4).state 4).success = true ∧
    (Ranker.insert natlt .AddAfterEqual
      (Ranker.insert natlt .AddAfterEqual (⟨[], 2⟩ : Ranker Nat) 4).state 4).state.ranking
      = [4, 4] ∧
    (Ranker.insert natlt .AddAfterEqual
      (Ranker.insert natlt .AddAfterEqual
        (Ranker.insert natlt .AddAfterEqual (⟨[], 2⟩ : Ranker Nat) 4).state 4).state
      4).success = false ∧
    (Ranker.insert natlt .AddAfterEqual
      (Ranker.insert natlt .AddAfterEqual
        (Ranker.insert natlt .AddAfterEqual (⟨[], 2⟩ : Ranker Nat) 4).state 4).state
      4).state.ranking = [4, 4] ∧
    (Ranker.insert natlt .AddAfterEqual
      (Ranker.insert natlt .AddAfterEqual
        (Ranker.insert natlt .AddAfterEqual (⟨[], 2⟩ : Ranker Nat) 4).state 4).state
      4).disposed = [4] ∧
    insertPos natlt .AddAfterEqual 4 [4, 4] = 2 := by
  decide

/-- Claim C2: after any completed sequence of operations the size
never exceeds the capacity (invariant I1), and an insert into a
ranking at capacity evicts exactly one element — the last element of
the transiently over-full sequence — restoring the bound. -/
theorem claim_C2_capacity_invariant {T : Type} [DecidableEq T] {lt : T → T → Bool}
    {behavior : SameValueBehavior} {top : Nat} {r : Ranker T} (x : T)
    (hr : Reachable lt behavior top r) :
    r.ranking.length ≤ r.TOP ∧
    (r.ranking.length = r.TOP →
      ∃ e, (Ranker.insert lt behavior r x).disposed = [e] ∧
        (Ranker.insert lt behavior r x).state.ranking ++ [e] =
          insertedList lt behavior x r.ranking ∧
        (Ranker.insert lt behavior r x).state.ranking.length = r.TOP) := by
  refine ⟨size_le_TOP_of_reachable hr, ?_⟩
  intro hfull
  obtain ⟨e, he, heq, hdecomp⟩ := @insert_full T lt behavior r x (by omega)
  refine ⟨e, by rw [heq], hdecomp, ?_⟩
  rw [heq]
  show (insertedList lt behavior x r.ranking).dropLast.length = r.TOP
  rw [List.length_dropLast, length_insertedList]
  omega

/-- Witness for C2: capacity 1 after inserting 10, then inserting 20
overflows and evicts exactly one element. -/
theorem claim_C2_witness :
    (Ranker.insert natlt .AddAfterEqual (⟨[], 1⟩ : Ranker Nat) 10).state.ranking.length ≤
      (Ranker.insert natlt .AddAfterEqual (⟨[], 1⟩ : Ranker Nat) 10).state.TOP ∧
    ((Ranker.insert natlt .AddAfterEqual (⟨[], 1⟩ : Ranker Nat) 10).state.ranking.length =
        (Ranker.insert natlt .AddAfterEqual (⟨[], 1⟩ : Ranker Nat) 10).state.TOP →
      ∃ e, (Ranker.insert natlt .AddAfterEqual
          (Ranker.insert natlt .AddAfterEqual (⟨[], 1⟩ : Ranker Nat) 10).state 20).disposed
          = [e] ∧
        (Ranker.insert natlt .AddAfterEqual
          (Ranker.insert natlt .AddAfterEqual (⟨[], 1⟩ : Ranker Nat) 10).state 20).state.ranking
          ++ [e] =
          insertedList natlt .AddAfterEqual 20
            (Ranker.insert natlt .AddAfterEqual (⟨[], 1⟩ : Ranker Nat) 10).state.ranking ∧
        (Ranker.insert natlt .AddAfterEqual
          (Ranker.insert natlt .AddAfterEqual (⟨[], 1⟩ : Ranker Nat) 10).state 20).state.ranking.length
          = (Ranker.insert natlt .AddAfterEqual (⟨[], 1⟩ : Ranker Nat) 10).state.TOP) :=
  claim_C2_capacity_invariant 20 (Reachable.insert 10 Reachable.init)

/-- Claim C3: assuming the comparator is a strict weak order, every
state reachable by any sequence of operations is sorted top-to-bottom
(invariant I2). -/
theorem claim_C3_sortedness {T : Type} [DecidableEq T] {lt : T → T → Bool}
    {behavior : SameValueBehavior} {top : Nat} {r : Ranker T}
    (h : IsStrictWeakOrder lt) (hr : Reachable lt behavior top r) :
    SortedRanking lt r.ranking :=
  sorted_of_reachable h hr

/-- A list whose head is not below `x` has lower bound 0. -/
theorem lowerBound_eq_zero {T : Type} {lt : T → T → Bool} {x : T} :
    ∀ {l : List T}, (∀ a ∈ l, lt a x = false) → lowerBound lt x l = 0
  | [], _ => rfl
  | a :: l, h => by simp [lowerBound, h a (List.mem_cons_self a l)]

/-- Under `AddAfterEqual`, inserting a run of pairwise-incomparable
elements keeps the earliest `C` of the processed prefix, in order:
each new element goes to the tail and, once full, is the one evicted. -/
theorem insertAll_after_equal {T : Type} {lt : T → T → Bool} (C : Nat) (l : List T) :
    ∀ p : List T, (∀ a ∈ p ++ l, ∀ b ∈ p ++ l, lt a b = false) →
      insertAll lt .AddAfterEqual ⟨p.take C, C⟩ l = ⟨(p ++ l).take C, C⟩ := by
  induction l with
  | nil =>
    intro p h
    rw [List.append_nil]
    rfl
  | cons x l' ih =>
    intro p h
    have hallp : ∀ a ∈ p.take C, lt x a = false := fun a ha =>
      h x (by simp) a (List.mem_append_left _ (List.take_subset C p ha))
    have hpos : insertPos lt .AddAfterEqual x (p.take C) = (p.take C).length := by
      show upperBound lt x (p.take C) = (p.take C).length
      exact upperBound_eq_length_iff.2 hallp
    have hconcat : insertedList lt .AddAfterEqual x (p.take C) = p.take C ++ [x] :=
      insertedList_eq_concat hpos
    have hstep : (Ranker.insert lt .AddAfterEqual (⟨p.take C, C⟩ : Ranker T) x).state =
        ⟨(p ++ [x]).take C, C⟩ := by
      by_cases hlt : (p.take C).length < C
      · rw [insert_not_full
          (show (⟨p.take C, C⟩ : Ranker T).ranking.length < (⟨p.take C, C⟩ : Ranker T).TOP
            from hlt)]
        show (⟨insertedList lt .AddAfterEqual x (p.take C), C⟩ : Ranker T) = _
        rw [hconcat]
        have hplen : p.length < C := by
          rw [List.length_take] at hlt
          omega
        congr 1
        rw [List.take_of_length_le (by omega),
          List.take_of_length_le (by rw [List.length_append]; simp; omega)]
      · obtain ⟨e, he, heq, hdecomp⟩ := @insert_full T lt SameValueBehavior.AddAfterEqual ⟨p.take C, C⟩ x
          (show (⟨p.take C, C⟩ : Ranker T).TOP ≤ (⟨p.take C, C⟩ : Ranker T).ranking.length
            from by show C ≤ (List.take C p).length; omega)
        rw [heq]
        show (⟨(insertedList lt .AddAfterEqual x (p.take C)).dropLast, C⟩ : Ranker T) = _
        rw [hconcat, List.dropLast_concat]
        have hClep : C ≤ p.length := by
          rw [List.length_take] at hlt
          omega
        congr 1
        rw [List.take_append_of_le_length hClep]
    show insertAll lt .AddAfterEqual
      (Ranker.insert lt .AddAfterEqual (⟨p.take C, C⟩ : Ranker T) x).state l' = _
    rw [hstep]
    have h' : ∀ a ∈ (p ++ [x]) ++ l', ∀ b ∈ (p ++ [x]) ++ l', lt a b = false := by
      rw [List.append_assoc]
      exact h
    rw [ih (p ++ [x]) h', List.append_assoc]
    rfl

/-- Under `AddBeforeEqual`, inserting a run of pairwise-incomparable
elements keeps the latest `C` of the processed prefix, in reverse
order: each new element goes to the front and, once full, the oldest
retained element at the tail is evicted. -/
theorem insertAll_before_equal {T : Type} {lt : T → T → Bool} (C : Nat) (l : List T) :
    ∀ p : List T, (∀ a ∈ p ++ l, ∀ b ∈ p ++ l, lt a b = false) →
      insertAll lt .AddBeforeEqual ⟨p.reverse.take C, C⟩ l = ⟨(p ++ l).reverse.take C, C⟩ := by
  induction l with
  | nil =>
    intro p h
    rw [List.append_nil]
    rfl
  | cons x l' ih =>
    intro p h
    have hallp : ∀ a ∈ p.reverse.take C, lt a x = false := fun a ha =>
      h a (List.mem_append_left _ (by
        have := List.take_subset C p.reverse ha
        simpa using this)) x (by simp)
    have hpos : insertPos lt .AddBeforeEqual x (p.reverse.take C) = 0 := by
      show lowerBound lt x (p.reverse.take C) = 0
      exact lowerBound_eq_zero hallp
    have hcons : insertedList lt .AddBeforeEqual x (p.reverse.take C) =
        x :: p.reverse.take C := by
      unfold insertedList
      rw [hpos]
      rfl
    have hstep : (Ranker.insert lt .AddBeforeEqual (⟨p.reverse.take C, C⟩ : Ranker T) x).state =
        ⟨(p ++ [x]).reverse.take C, C⟩ := by
      have hrev : (p ++ [x]).reverse = x :: p.reverse := by
        rw [List.reverse_append]
        rfl
      by_cases hlt : (p.reverse.take C).length < C
      · rw [insert_not_full
          (show (⟨p.reverse.take C, C⟩ : Ranker T).ranking.length <
              (⟨p.reverse.take C, C⟩ : Ranker T).TOP from hlt)]
        show (⟨insertedList lt .AddBeforeEqual x (p.reverse.take C), C⟩ : Ranker T) = _
        rw [hcons, hrev]
        have hplen : p.length < C := by
          rw [List.length_take, List.length_reverse] at hlt
          omega
        congr 1
        rw [List.take_of_length_le (by rw [List.length_reverse]; omega),
          List.take_of_length_le (by simp; omega)]
      · obtain ⟨e, he, heq, hdecomp⟩ := @insert_full T lt SameValueBehavior.AddBeforeEqual ⟨p.reverse.take C, C⟩ x
          (show (⟨p.reverse.take C, C⟩ : Ranker T).TOP ≤
              (⟨p.reverse.take C, C⟩ : Ranker T).ranking.length
            from by show C ≤ (List.take C p.reverse).length; omega)
        rw [heq]
        show (⟨(insertedList lt .AddBeforeEqual x (p.reverse.take C)).dropLast, C⟩ : Ranker T)
          = _
        rw [hcons, hrev]
        have hslen : (p.reverse.take C).length = C := by
          have hlt2 := hlt
          rw [List.length_take, List.length_reverse] at hlt2 ⊢
          omega
        congr 1
        rw [List.dropLast_eq_take]
        rw [show (x :: p.reverse.take C).length - 1 = C from by simp [hslen]]
        cases C with
        | zero => simp
        | succ c =>
          rw [List.take_cons (n := c + 1) (Nat.succ_pos c), List.take_cons (n := c + 1) (Nat.succ_pos c)]
          simp only [Nat.add_sub_cancel]
          rw [List.take_take, show c ⊓ (c + 1) = c from inf_eq_left.2 (by omega)]
    show insertAll lt .AddBeforeEqual
      (Ranker.insert lt .AddBeforeEqual (⟨p.reverse.take C, C⟩ : Ranker T) x).state l' = _
    rw [hstep]
    have h' : ∀ a ∈ (p ++ [x]) ++ l', ∀ b ∈ (p ++ [x]) ++ l', lt a b = false := by
      rw [List.append_assoc]
      exact h
    rw [ih (p ++ [x]) h', List.append_assoc]
    rfl

/-- Claim C5: for a sequence of pairwise-incomparable (equal-ranked)
insertions into an empty ranking of capacity `C`, `AddAfterEqual`
retains the first `C` elements in insertion order, and
`AddBeforeEqual` retains the last `C` elements in reverse insertion
order — the placement is decided at insertion time. -/
theorem claim_C5_tie_break {T : Type} {lt : T → T → Bool} (C : Nat) (l : List T)
    (h : ∀ a ∈ l, ∀ b ∈ l, lt a b = false) :
    (insertAll lt .AddAfterEqual (⟨[], C⟩ : Ranker T) l).ranking = l.take C ∧
    (insertAll lt .AddBeforeEqual (⟨[], C⟩ : Ranker T) l).ranking = l.reverse.take C := by
  constructor
  · have hz : (⟨List.take C ([] : List T), C⟩ : Ranker T) = ⟨[], C⟩ := by
      rw [List.take_nil]
    have := insertAll_after_equal C l []
      (by intro a ha b hb; exact h a (by simpa using ha) b (by simpa using hb))
    rw [hz] at this
    rw [this]
    show List.take C ([] ++ l) = List.take C l
    rw [List.nil_append]
  · have hz : (⟨List.take C ([] : List T).reverse, C⟩ : Ranker T) = ⟨[], C⟩ := by
      rw [List.reverse_nil, List.take_nil]
    have := insertAll_before_equal C l []
      (by intro a ha b hb; exact h a (by simpa using ha) b (by simpa using hb))
    rw [hz] at this
    rw [this]
    show List.take C ([] ++ l).reverse = List.take C l.reverse
    rw [List.nil_append]

/-- Witness for C5: three mutually incomparable elements into a
capacity-2 ranking. -/
theorem claim_C5_witness :
    (insertAll (fun _ _ => false) .AddAfterEqual (⟨[], 2⟩ : Ranker Nat) [1, 2, 3]).ranking
      = ([1, 2, 3] : List Nat).take 2 ∧
    (insertAll (fun _ _ => false) .AddBeforeEqual (⟨[], 2⟩ : Ranker Nat) [1, 2, 3]).ranking
      = ([1, 2, 3] : List Nat).reverse.take 2 :=
  claim_C5_tie_break 2 [1, 2, 3] (by decide)

/-- Claim C1: `insert` returns `true` iff the inserted element itself
survives (it occupies the position it was placed at in the final
sequence); it returns `false` exactly when the ranking was already at
capacity and the element sorts at or below the current bottom under
the tie-break rule (not above the bottom for `AddAfterEqual`, bottom
strictly below it for `AddBeforeEqual`); below capacity it always
returns `true`; with capacity zero every insert is disposed
immediately, returns `false`, and leaves the ranking unchanged. -/
theorem claim_C1_insert_return {T : Type} [DecidableEq T] {lt : T → T → Bool}
    {behavior : SameValueBehavior} {top : Nat} {r : Ranker T} (x : T)
    (h : IsStrictWeakOrder lt) (hr : Reachable lt behavior top r) :
    ((Ranker.insert lt behavior r x).success = true ↔
      (Ranker.insert lt behavior r x).state.ranking[insertPos lt behavior x r.ranking]?
        = some x) ∧
    ((Ranker.insert lt behavior r x).success = false ↔
      (r.TOP ≤ r.ranking.length ∧
        ∀ b ∈ r.bottom,
          (behavior = .AddAfterEqual → lt x b = false) ∧
          (behavior = .AddBeforeEqual → lt b x = true))) ∧
    (r.ranking.length < r.TOP → (Ranker.insert lt behavior r x).success = true) ∧
    (r.TOP = 0 → (Ranker.insert lt behavior r x).success = false ∧
      (Ranker.insert lt behavior r x).disposed = [x] ∧
      (Ranker.insert lt behavior r x).state.ranking = r.ranking) := by
  have hsorted : SortedRanking lt r.ranking := sorted_of_reachable h hr
  have hposle := insertPos_le_length lt behavior x r.ranking
  by_cases hfull : r.ranking.length < r.TOP
  · rw [insert_not_full hfull]
    refine ⟨?_, ?_, fun _ => rfl, fun h0 => absurd hfull (by omega)⟩
    · show (true = true ↔ _)
      simp only [true_iff]
      exact insertedList_getElem_pos lt behavior x r.ranking
    · show (true = false ↔ _)
      constructor
      · intro hcon
        exact absurd hcon (by simp)
      · rintro ⟨hge, -⟩
        omega
  · obtain ⟨e, he, heq, hdecomp⟩ := @insert_full T lt behavior r x (by omega)
    rw [heq]
    have hlen := length_insertedList lt behavior x r.ranking
    have hbot : insertPos lt behavior x r.ranking = r.ranking.length ↔
        (∀ b ∈ r.bottom,
          (behavior = .AddAfterEqual → lt x b = false) ∧
          (behavior = .AddBeforeEqual → lt b x = true)) := by
      cases hb : r.ranking.getLast? with
      | none =>
        have hnil : r.ranking = [] := by
          cases hl : r.ranking with
          | nil => rfl
          | cons a l =>
            rw [hl] at hb
            obtain ⟨e2, he2, -⟩ := exists_last_decomp (l := a :: l) (by simp)
            rw [hb] at he2
            exact absurd he2 (by simp)
        rw [Ranker.bottom, hb]
        constructor
        · intro _ b hbmem
          exact absurd hbmem (by simp)
        · intro _
          rw [hnil]
          cases behavior <;> rfl
      | some b =>
        rw [Ranker.bottom, hb]
        have hiff := insertPos_eq_length_iff_bottom h behavior (x := x) hsorted hb
        constructor
        · intro hpl b2 hbmem
          have hb2 : b2 = b := by
            have := hbmem
            simp only [Option.mem_def, Option.some.injEq] at this
            exact this.symm
          subst hb2
          cases behavior with
          | AddAfterEqual =>
            refine ⟨fun _ => ?_, fun hcon => absurd hcon (by simp)⟩
            exact hiff.1 hpl
          | AddBeforeEqual =>
            refine ⟨fun hcon => absurd hcon (by simp), fun _ => ?_⟩
            exact hiff.1 hpl
        · intro hcond
          have hcb := hcond b (by simp)
          cases behavior with
          | AddAfterEqual => exact hiff.2 (hcb.1 rfl)
          | AddBeforeEqual => exact hiff.2 (hcb.2 rfl)
    refine ⟨?_, ?_, fun hcon => absurd hcon hfull, ?_⟩
    · show (decide (insertPos lt behavior x r.ranking ≠ r.ranking.length) = true ↔
        (insertedList lt behavior x r.ranking).dropLast[insertPos lt behavior x r.ranking]?
          = some x)
      by_cases hpl : insertPos lt behavior x r.ranking = r.ranking.length
      · rw [hpl]
        simp only [decide_eq_true_eq, ne_eq, not_true_eq_false, false_iff]
        rw [List.getElem?_eq_none (by rw [List.length_dropLast, hlen]; omega)]
        simp
      · simp only [decide_eq_true_eq, ne_eq, hpl, not_false_eq_true, true_iff]
        rw [List.getElem?_dropLast, if_pos (by omega)]
        exact insertedList_getElem_pos lt behavior x r.ranking
    · show (decide (insertPos lt behavior x r.ranking ≠ r.ranking.length) = false ↔ _)
      simp only [decide_eq_false_iff_not, ne_eq, not_not]
      rw [hbot]
      constructor
      · intro hcond
        exact ⟨by omega, hcond⟩
      · rintro ⟨-, hcond⟩
        exact hcond
    · intro h0
      have hszle := size_le_TOP_of_reachable hr
      have hnil : r.ranking = [] := by
        have : r.ranking.length = 0 := by omega
        exact List.length_eq_zero.1 this
      have hpl : insertPos lt behavior x r.ranking = r.ranking.length := by
        rw [hnil]
        cases behavior <;> rfl
      have hconcat := insertedList_eq_concat hpl
      rw [hconcat, List.getLast?_concat] at he
      have hex : e = x := by
        injection he with he2
        exact he2.symm
      refine ⟨?_, ?_, ?_⟩
      · show decide (insertPos lt behavior x r.ranking ≠ r.ranking.length) = false
        simp [hpl]
      · show [e] = [x]
        rw [hex]
      · show (insertedList lt behavior x r.ranking).dropLast = r.ranking
        rw [hconcat, List.dropLast_concat]

/-- Witness for C1 at a concrete input: a reachable capacity-1
ranking holding `[10]`; inserting 5 (which outranks the bottom). -/
theorem claim_C1_witness :
    ((Ranker.insert natlt .AddAfterEqual
        (Ranker.insert natlt .AddAfterEqual (⟨[], 1⟩ : Ranker Nat) 10).state 5).success = true ↔
      (Ranker.insert natlt .AddAfterEqual
        (Ranker.insert natlt .AddAfterEqual (⟨[], 1⟩ : Ranker Nat) 10).state
        5).state.ranking[insertPos natlt .AddAfterEqual 5
          (Ranker.insert natlt .AddAfterEqual (⟨[], 1⟩ : Ranker Nat) 10).state.ranking]?
        = some 5) ∧
    ((Ranker.insert natlt .AddAfterEqual
        (Ranker.insert natlt .AddAfterEqual (⟨[], 1⟩ : Ranker Nat) 10).state 5).success = false ↔
      ((Ranker.insert natlt .AddAfterEqual (⟨[], 1⟩ : Ranker Nat) 10).state.TOP ≤
          (Ranker.insert natlt .AddAfterEqual (⟨[], 1⟩ : Ranker Nat) 10).state.ranking.length ∧
        ∀ b ∈ (Ranker.insert natlt .AddAfterEqual (⟨[], 1⟩ : Ranker Nat) 10).state.bottom,
          (SameValueBehavior.AddAfterEqual = SameValueBehavior.AddAfterEqual →
            natlt 5 b = false) ∧
          (SameValueBehavior.AddAfterEqual = SameValueBehavior.AddBeforeEqual →
            natlt b 5 = true))) ∧
    ((Ranker.insert natlt .AddAfterEqual (⟨[], 1⟩ : Ranker Nat) 10).state.ranking.length <
        (Ranker.insert natlt .AddAfterEqual (⟨[], 1⟩ : Ranker Nat) 10).state.TOP →
      (Ranker.insert natlt .AddAfterEqual
        (Ranker.insert natlt .AddAfterEqual (⟨[], 1⟩ : Ranker Nat) 10).state 5).success = true) ∧
    ((Ranker.insert natlt .AddAfterEqual (⟨[], 1⟩ : Ranker Nat) 10).state.TOP = 0 →
      (Ranker.insert natlt .AddAfterEqual
        (Ranker.insert natlt .AddAfterEqual (⟨[], 1⟩ : Ranker Nat) 10).state 5).success = false ∧
      (Ranker.insert natlt .AddAfterEqual
        (Ranker.insert natlt .AddAfterEqual (⟨[], 1⟩ : Ranker Nat) 10).state 5).disposed = [5] ∧
      (Ranker.insert natlt .AddAfterEqual
        (Ranker.insert natlt .AddAfterEqual (⟨[], 1⟩ : Ranker Nat) 10).state 5).state.ranking =
        (Ranker.insert natlt .AddAfterEqual (⟨[], 1⟩ : Ranker Nat) 10).state.ranking) :=
  claim_C1_insert_return 5 natlt_swo (Reachable.insert 10 Reachable.init)

/-- Witness for C3: the state reached by inserting 5 then 3 into a
capacity-2 ranking is sorted. -/
theorem claim_C3_witness :
    SortedRanking natlt
      (Ranker.insert natlt .AddAfterEqual
        (Ranker.insert natlt .AddAfterEqual (⟨[], 2⟩ : Ranker Nat) 5).state 3).state.ranking :=
  claim_C3_sortedness natlt_swo (Reachable.insert 3 (Reachable.insert 5 Reachable.init))

/-- Claim C6: disposal completeness.  For `insert`, the transiently
over-full sequence splits exactly into the surviving sequence plus the
disposed elements (so each departure is disposed exactly once and
nothing surviving is disposed); no disposal happens below capacity and
exactly one — the evicted element — at capacity.  `clear` disposes
precisely the held elements and empties the sequence.  The by-value
removals dispose exactly what they remove. -/
theorem claim_C6_disposal_completeness {T : Type} [DecidableEq T]
    (lt : T → T → Bool) (behavior : SameValueBehavior) (r : Ranker T) (x : T) :
    (insertedList lt behavior x r.ranking =
      (Ranker.insert lt behavior r x).state.ranking ++
        (Ranker.insert lt behavior r x).disposed) ∧
    (r.ranking.length < r.TOP → (Ranker.insert lt behavior r x).disposed = []) ∧
    (r.TOP ≤ r.ranking.length → ∃ e, (Ranker.insert lt behavior r x).disposed = [e]) ∧
    ((Ranker.clear r).2 = r.ranking ∧ (Ranker.clear r).1.ranking = []) ∧
    (x ∈ r.ranking →
      Ranker.remove_first r x = some (⟨r.ranking.erase x, r.TOP⟩, [x]) ∧
      List.Perm r.ranking (r.ranking.erase x ++ [x])) ∧
    List.Perm r.ranking
      ((Ranker.remove_all r x).1.ranking ++ (Ranker.remove_all r x).2) := by
  refine ⟨?_, ?_, ?_, ⟨rfl, rfl⟩, ?_, ?_⟩
  · by_cases hfull : r.ranking.length < r.TOP
    · rw [insert_not_full hfull]
      show insertedList lt behavior x r.ranking = insertedList lt behavior x r.ranking ++ []
      rw [List.append_nil]
    · obtain ⟨e, he, heq, hdecomp⟩ := @insert_full T lt behavior r x (by omega)
      have hd : (Ranker.insert lt behavior r x).disposed = [e] := by rw [heq]
      rw [hd]
      exact hdecomp.symm
  · intro hlt
    rw [insert_not_full hlt]
  · intro hge
    obtain ⟨e, he, heq, hdecomp⟩ := @insert_full T lt behavior r x hge
    exact ⟨e, by rw [heq]⟩
  · intro hmem
    constructor
    · unfold Ranker.remove_first
      rw [if_pos hmem]
    · exact (List.perm_cons_erase hmem).trans
        (List.perm_append_singleton x (r.ranking.erase x)).symm
  · show List.Perm r.ranking
      (r.ranking.filter (fun y => decide (y ≠ x)) ++
        r.ranking.filter (fun y => decide (x = y)))
    have hfc : r.ranking.filter (fun y => !(decide (y ≠ x))) =
        r.ranking.filter (fun y => decide (x = y)) := by
      refine List.filter_congr ?_
      intro y hy
      by_cases hxy : y = x
      · subst hxy
        simp
      · have hxy2 : ¬x = y := fun hcon => hxy hcon.symm
        simp [hxy, hxy2]
    have := List.filter_append_perm (fun y => decide (y ≠ x)) r.ranking
    rw [hfc] at this
    exact this.symm

/-- Witness for C6: capacity-1 ranking holding `[7]`, element 7. -/
theorem claim_C6_witness :
    (insertedList natlt .AddAfterEqual 7 (⟨[7], 1⟩ : Ranker Nat).ranking =
      (Ranker.insert natlt .AddAfterEqual (⟨[7], 1⟩ : Ranker Nat) 7).state.ranking ++
        (Ranker.insert natlt .AddAfterEqual (⟨[7], 1⟩ : Ranker Nat) 7).disposed) ∧
    ((⟨[7], 1⟩ : Ranker Nat).ranking.length < (⟨[7], 1⟩ : Ranker Nat).TOP →
      (Ranker.insert natlt .AddAfterEqual (⟨[7], 1⟩ : Ranker Nat) 7).disposed = []) ∧
    ((⟨[7], 1⟩ : Ranker Nat).TOP ≤ (⟨[7], 1⟩ : Ranker Nat).ranking.length →
      ∃ e, (Ranker.insert natlt .AddAfterEqual (⟨[7], 1⟩ : Ranker Nat) 7).disposed = [e]) ∧
    ((Ranker.clear (⟨[7], 1⟩ : Ranker Nat)).2 = (⟨[7], 1⟩ : Ranker Nat).ranking ∧
      (Ranker.clear (⟨[7], 1⟩ : Ranker Nat)).1.ranking = []) ∧
    ((7 : Nat) ∈ (⟨[7], 1⟩ : Ranker Nat).ranking →
      Ranker.remove_first (⟨[7], 1⟩ : Ranker Nat) 7 =
        some (⟨(⟨[7], 1⟩ : Ranker Nat).ranking.erase 7, (⟨[7], 1⟩ : Ranker Nat).TOP⟩, [7]) ∧
      List.Perm (⟨[7], 1⟩ : Ranker Nat).ranking
        ((⟨[7], 1⟩ : Ranker Nat).ranking.erase 7 ++ [7])) ∧
    List.Perm (⟨[7], 1⟩ : Ranker Nat).ranking
      ((Ranker.remove_all (⟨[7], 1⟩ : Ranker Nat) 7).1.ranking ++
        (Ranker.remove_all (⟨[7], 1⟩ : Ranker Nat) 7).2) :=
  claim_C6_disposal_completeness natlt .AddAfterEqual ⟨[7], 1⟩ 7

/-- Claim C7: by-value `remove_all` removes and disposes every element
equal to the argument (each occurrence exactly once), keeps every
other element with its multiplicity, preserves the relative order of
the survivors (sublist), and preserves sortedness. -/
theorem claim_C7_remove_all {T : Type} [DecidableEq T] (lt : T → T → Bool)
    (r : Ranker T) (x y : T) (hs : SortedRanking lt r.ranking) (hy : y ≠ x) :
    x ∉ (Ranker.remove_all r x).1.ranking ∧
    List.count y (Ranker.remove_all r x).1.ranking = List.count y r.ranking ∧
    (Ranker.remove_all r x).1.ranking.Sublist r.ranking ∧
    List.count x (Ranker.remove_all r x).2 = List.count x r.ranking ∧
    List.count y (Ranker.remove_all r x).2 = 0 ∧
    SortedRanking lt (Ranker.remove_all r x).1.ranking := by
  refine ⟨?_, ?_, List.filter_sublist r.ranking, ?_, ?_, ?_⟩
  · intro hcon
    have := (List.mem_filter.1 hcon).2
    simp at this
  · exact List.count_filter (by simp [hy])
  · exact List.count_filter (by simp)
  · rw [List.count_eq_zero]
    intro hcon
    have := (List.mem_filter.1 hcon).2
    simp at this
    exact hy this.symm
  · exact hs.sublist (List.filter_sublist r.ranking)

/-- Witness for C7: sorted state `[1, 1, 2]`, removing all 1s,
observing element 2. -/
theorem claim_C7_witness :
    (1 : Nat) ∉ (Ranker.remove_all (⟨[1, 1, 2], 3⟩ : Ranker Nat) 1).1.ranking ∧
    List.count 2 (Ranker.remove_all (⟨[1, 1, 2], 3⟩ : Ranker Nat) 1).1.ranking =
      List.count 2 (⟨[1, 1, 2], 3⟩ : Ranker Nat).ranking ∧
    (Ranker.remove_all (⟨[1, 1, 2], 3⟩ : Ranker Nat) 1).1.ranking.Sublist
      (⟨[1, 1, 2], 3⟩ : Ranker Nat).ranking ∧
    List.count 1 (Ranker.remove_all (⟨[1, 1, 2], 3⟩ : Ranker Nat) 1).2 =
      List.count 1 (⟨[1, 1, 2], 3⟩ : Ranker Nat).ranking ∧
    List.count 2 (Ranker.remove_all (⟨[1, 1, 2], 3⟩ : Ranker Nat) 1).2 = 0 ∧
    SortedRanking natlt (Ranker.remove_all (⟨[1, 1, 2], 3⟩ : Ranker Nat) 1).1.ranking :=
  claim_C7_remove_all natlt ⟨[1, 1, 2], 3⟩ 1 2
    (by show List.Pairwise (fun a b => natlt b a = false) [1, 1, 2]; decide) (by decide)

/-- Claim C8: by-value `remove_first` under the precondition that an
equal element is present removes exactly the first equal element in
sequence order and disposes it, leaving everything else unchanged;
without the precondition the unchecked search result is dereferenced
(undefined behaviour, modelled as `none`), so the defined outcome is
reached exactly when the precondition holds. -/
theorem claim_C8_remove_first {T : Type} [DecidableEq T] (r : Ranker T) (x : T) :
    (x ∈ r.ranking →
      ∃ p q, r.ranking = p ++ x :: q ∧ x ∉ p ∧
        Ranker.remove_first r x = some (⟨p ++ q, r.TOP⟩, [x])) ∧
    (x ∉ r.ranking → Ranker.remove_first r x = none) := by
  constructor
  · intro hmem
    obtain ⟨p, q, hnp, hsplit, herase⟩ := List.exists_erase_eq hmem
    refine ⟨p, q, hsplit, hnp, ?_⟩
    unfold Ranker.remove_first
    rw [if_pos hmem, herase]
  · intro hnmem
    unfold Ranker.remove_first
    rw [if_neg hnmem]

/-- Witness for C8: state `[2, 1, 1]` with element 1 present, and
element 5 absent. -/
theorem claim_C8_witness :
    ((1 : Nat) ∈ (⟨[2, 1, 1], 3⟩ : Ranker Nat).ranking →
      ∃ p q, (⟨[2, 1, 1], 3⟩ : Ranker Nat).ranking = p ++ 1 :: q ∧ (1 : Nat) ∉ p ∧
        Ranker.remove_first (⟨[2, 1, 1], 3⟩ : Ranker Nat) 1 =
          some (⟨p ++ q, (⟨[2, 1, 1], 3⟩ : Ranker Nat).TOP⟩, [1])) ∧
    ((1 : Nat) ∉ (⟨[2, 1, 1], 3⟩ : Ranker Nat).ranking →
      Ranker.remove_first (⟨[2, 1, 1], 3⟩ : Ranker Nat) 1 = none) :=
  claim_C8_remove_first ⟨[2, 1, 1], 3⟩ 1

/-- Claim C9 counterexample: with no identical occurrence present
(5 is not held), the identity-based `remove_all` still invokes the
disposal action — on the argument handle — contradicting the claim
that no disposal action is invoked in that case. -/
theorem claim_C9_counterexample :
    (5 : Nat) ∉ (⟨[1, 2], 3⟩ : Ranker Nat).ranking ∧
    (Ranker.remove_all_id (⟨[1, 2], 3⟩ : Ranker Nat) 5).2 = [5] := by
  constructor
  · decide
  · rfl

/-- Claim C9 amended: identity-based `remove_all` removes every
occurrence identical to the argument (keeping all others, in order)
and invokes the disposal action exactly once, on the argument handle,
unconditionally — even when no occurrence matches; when no occurrence
matches the sequence is unchanged. -/
theorem claim_C9_amended {T : Type} [DecidableEq T] (r : Ranker T) (x y : T)
    (hy : y ≠ x) :
    x ∉ (Ranker.remove_all_id r x).1.ranking ∧
    (Ranker.remove_all_id r x).1.ranking.Sublist r.ranking ∧
    List.count y (Ranker.remove_all_id r x).1.ranking = List.count y r.ranking ∧
    (Ranker.remove_all_id r x).2 = [x] ∧
    (x ∉ r.ranking → (Ranker.remove_all_id r x).1.ranking = r.ranking) := by
  refine ⟨?_, List.filter_sublist r.ranking, ?_, rfl, ?_⟩
  · intro hcon
    have := (List.mem_filter.1 hcon).2
    simp at this
  · exact List.count_filter (by simp [hy])
  · intro hnmem
    show r.ranking.filter (fun z => decide (z ≠ x)) = r.ranking
    rw [List.filter_eq_self]
    intro a ha
    simp only [decide_eq_true_eq]
    intro hcon
    subst hcon
    exact hnmem ha

/-- Witness for C9 (amended): state `[1, 2]`, handle 5 absent,
observing element 2. -/
theorem claim_C9_amended_witness :
    (5 : Nat) ∉ (Ranker.remove_all_id (⟨[1, 2], 3⟩ : Ranker Nat) 5).1.ranking ∧
    (Ranker.remove_all_id (⟨[1, 2], 3⟩ : Ranker Nat) 5).1.ranking.Sublist
      (⟨[1, 2], 3⟩ : Ranker Nat).ranking ∧
    List.count 2 (Ranker.remove_all_id (⟨[1, 2], 3⟩ : Ranker Nat) 5).1.ranking =
      List.count 2 (⟨[1, 2], 3⟩ : Ranker Nat).ranking ∧
    (Ranker.remove_all_id (⟨[1, 2], 3⟩ : Ranker Nat) 5).2 = [5] ∧
    ((5 : Nat) ∉ (⟨[1, 2], 3⟩ : Ranker Nat).ranking →
      (Ranker.remove_all_id (⟨[1, 2], 3⟩ : Ranker Nat) 5).1.ranking =
        (⟨[1, 2], 3⟩ : Ranker Nat).ranking) :=
  claim_C9_amended ⟨[1, 2], 3⟩ 5 2 (by decide)

end Mili
